import Mathlib

/-
Shallow embedding of export_reqif_pdf.py (class ReqIFExtractor) and proofs
about its specification claims.

Conventions of the embedding:
  * Python strings are Lean String; helper functions pySplit, pyStrip,
    collapseWS model str.split(), str.strip() and re.sub over the
    whitespace class, working on the underlying character list.
  * html.unescape is modelled by pyUnescape, restricted to the core named
    entities; no claim depends on the entity table.
  * Filesystem paths are strings; (base_dir / p).resolve() is modelled as
    plain path concatenation by resolvePath, abstracting normalization.
  * Python float arithmetic of the PDF layout is modelled exactly over the
    rationals; every comparison the claims touch holds with a wide margin,
    far beyond IEEE rounding error.
-/

/-- Whitespace test used throughout: models the Python whitespace class of
str.split, str.strip and the regex shorthand. -/
def isWS (c : Char) : Bool := c.isWhitespace

/-- Accumulator pass of pySplit: builds the current word reversed in acc and
emits maximal nonblank runs, exactly as Python str.split() with no
separator does. -/
def splitAux : List Char → List Char → List (List Char)
  | [], acc => if acc = [] then [] else [acc.reverse]
  | c :: cs, acc =>
    if isWS c then
      (if acc = [] then [] else [acc.reverse]) ++ splitAux cs []
    else splitAux cs (c :: acc)

/-- Python text.split(): whitespace-separated words, empties dropped. -/
def pySplit (s : String) : List String := (splitAux s.data []).map (fun l => ⟨l⟩)

/-- Drop leading whitespace. -/
def stripLeft (l : List Char) : List Char := l.dropWhile isWS

/-- Drop trailing whitespace. -/
def stripRight (l : List Char) : List Char := (l.reverse.dropWhile isWS).reverse

/-- Python s.strip(). -/
def pyStrip (s : String) : String := ⟨stripRight (stripLeft s.data)⟩

/-- One step of whitespace-run collapsing: models re.sub of a whitespace run
by a single space, as applied by extract_xhtml to text nodes. -/
def collapseWSList : List Char → List Char
  | [] => []
  | c :: cs =>
    if isWS c then ' ' :: collapseWSList (cs.dropWhile isWS)
    else c :: collapseWSList cs
termination_by l => l.length
decreasing_by
  · have h := (List.dropWhile_sublist (l := cs) (p := isWS)).length_le
    simp only [List.length_cons]
    omega
  · simp only [List.length_cons]
    omega

/-- Whitespace-run collapsing on strings. -/
def collapseWS (s : String) : String := ⟨collapseWSList s.data⟩

/-- html.unescape, restricted to the core named entities (the claims never
inspect the entity table, only that the same decoding is applied). -/
def pyUnescape : List Char → List Char
  | '&' :: 'a' :: 'm' :: 'p' :: ';' :: rest => '&' :: pyUnescape rest
  | '&' :: 'l' :: 't' :: ';' :: rest => '<' :: pyUnescape rest
  | '&' :: 'g' :: 't' :: ';' :: rest => '>' :: pyUnescape rest
  | '&' :: 'q' :: 'u' :: 'o' :: 't' :: ';' :: rest => '"' :: pyUnescape rest
  | c :: rest => c :: pyUnescape rest
  | [] => []

/-- html.unescape on strings. -/
def pyUnescapeStr (s : String) : String := ⟨pyUnescape s.data⟩

/-- Python s.isdigit() on the strings at hand: nonempty and all digits
(the exotic Unicode digit classes Python also accepts are out of scope of
the integer attribute values the claims mention). -/
def pyIsDigit (s : String) : Bool := !s.data.isEmpty && s.data.all (fun c => c.isDigit)

/-- Python s.zfill(n) for unsigned content: left pad with zeros to width n. -/
def zfill (s : String) (n : Nat) : String :=
  if n ≤ s.length then s else ⟨List.replicate (n - s.length) '0' ++ s.data⟩

/-- Python substring containment, needle in hay. -/
def containsSub (hay needle : String) : Bool :=
  hay.data.tails.any (fun t => needle.data.isPrefixOf t)

/-- child.tag.split with the closing-brace separator, last piece: the local
part of a namespace-qualified tag. -/
def localTag (t : String) : String := ⟨(t.data.reverse.takeWhile (fun c => c ≠ '}')).reverse⟩

/-- Python Path(p).name: the part after the last slash. -/
def baseName (p : String) : String := ⟨(p.data.reverse.takeWhile (fun c => c ≠ '/')).reverse⟩

/-- Models (self.base_dir / p).resolve(): path join, normalization abstracted. -/
def resolvePath (bd p : String) : String := bd ++ "/" ++ p

/-- Python f-string formatting of a value that may be None. -/
def pyFmtOpt : Option String → String
  | some s => s
  | none => "None"

/-- Attribute lookup on an element, models child.attrib.get(k). -/
def attrGet (l : List (String × String)) (k : String) : Option String :=
  (l.find? (fun p => p.1 = k)).map (fun p => p.2)

/- Reference form of the word splitter, used only inside proofs: the same
function as splitAux with empty accumulator, written without accumulator so
that induction follows the word structure. -/

/-- Word splitter without accumulator; proofs run on this form and transfer
to splitAux through splitAux_spec. -/
def wordsRec : List Char → List (List Char)
  | [] => []
  | c :: cs =>
    if isWS c then wordsRec cs
    else (c :: cs.takeWhile (fun d => !isWS d)) ::
      wordsRec (cs.dropWhile (fun d => !isWS d))
termination_by l => l.length
decreasing_by
  · simp only [List.length_cons]
    omega
  · have h := (List.dropWhile_sublist (l := cs) (p := fun d => !isWS d)).length_le
    simp only [List.length_cons]
    omega

theorem splitAux_spec (l : List Char) :
    splitAux l [] = wordsRec l ∧
    ∀ acc, acc ≠ [] → splitAux l acc =
      (acc.reverse ++ l.takeWhile (fun d => !isWS d)) ::
        wordsRec (l.dropWhile (fun d => !isWS d)) := by
  induction l with
  | nil =>
    refine ⟨by simp [splitAux, wordsRec], ?_⟩
    intro acc hacc
    simp [splitAux, hacc, wordsRec]
  | cons c cs ih =>
    by_cases hc : isWS c = true
    · constructor
      · rw [splitAux, if_pos hc]
        simp only [if_pos rfl, List.nil_append]
        rw [ih.1, wordsRec, if_pos hc]
        simp
      · intro acc hacc
        rw [splitAux, if_pos hc, if_neg hacc, ih.1]
        have ht : (c :: cs).takeWhile (fun d => !isWS d) = [] := by
          simp [List.takeWhile_cons, hc]
        have hd : (c :: cs).dropWhile (fun d => !isWS d) = c :: cs := by
          simp [List.dropWhile_cons, hc]
        rw [ht, hd, wordsRec, if_pos hc]
        simp
    · have hc' : isWS c = false := by simpa using hc
      constructor
      · rw [splitAux, if_neg (by simp [hc']), (ih.2 [c] (by simp))]
        rw [wordsRec, if_neg (by simp [hc'])]
        simp [List.takeWhile_cons, List.dropWhile_cons, hc']
      · intro acc hacc
        rw [splitAux, if_neg (by simp [hc']), (ih.2 (c :: acc) (by simp))]
        have ht : (c :: cs).takeWhile (fun d => !isWS d)
            = c :: cs.takeWhile (fun d => !isWS d) := by
          simp [List.takeWhile_cons, hc']
        have hd : (c :: cs).dropWhile (fun d => !isWS d)
            = cs.dropWhile (fun d => !isWS d) := by
          simp [List.dropWhile_cons, hc']
        rw [ht, hd]
        simp

theorem splitAux_eq_wordsRec (l : List Char) : splitAux l [] = wordsRec l :=
  (splitAux_spec l).1

/-- Every word produced by the splitter is nonempty and free of whitespace. -/
theorem wordsRec_words : ∀ l, ∀ w ∈ wordsRec l, w ≠ [] ∧ ∀ c ∈ w, isWS c = false := by
  intro l
  induction l using wordsRec.induct with
  | case1 =>
    intro w hw
    simp [wordsRec] at hw
  | case2 c cs h ih =>
    intro w hw
    rw [wordsRec, if_pos h] at hw
    exact ih w hw
  | case3 c cs h ih =>
    intro w hw
    rw [wordsRec, if_neg h] at hw
    rcases List.mem_cons.1 hw with rfl | hw
    · refine ⟨by simp, ?_⟩
      intro d hd
      rcases List.mem_cons.1 hd with rfl | hd
      · simpa using h
      · have hm := List.mem_takeWhile_imp hd
        simpa using hm
    · exact ih w hw

theorem pySplit_words (s : String) :
    ∀ w ∈ pySplit s, w.data ≠ [] ∧ ∀ c ∈ w.data, isWS c = false := by
  intro w hw
  rcases List.mem_map.1 (by simpa [pySplit, splitAux_eq_wordsRec] using hw) with ⟨l, hl, rfl⟩
  exact wordsRec_words _ l hl

/- ------------------------------------------------------------------ -/
/- Text wrapping: method wrap of ReqIFExtractor                        -/
/- ------------------------------------------------------------------ -/

/-- Loop body of the source method wrap: Python iterates over
text.split() keeping the pending line cur; a word joins the line when
len(cur) + len(w) + 1 <= max_len, else the line is flushed. -/
def wrapLoop (max_len : Nat) : List String → List String → String → List String
  | [], lines, cur => if cur ≠ "" then lines ++ [cur] else lines
  | w :: rest, lines, cur =>
    if cur.length + w.length + 1 ≤ max_len then
      wrapLoop max_len rest lines (pyStrip (cur ++ " " ++ w))
    else
      wrapLoop max_len rest (lines ++ [cur]) w

/-- Source method wrap(text, max_len). -/
def wrap (text : String) (max_len : Nat) : List String :=
  wrapLoop max_len (pySplit text) [] ""

/-- Reference greedy wrapping, defined from the words of the spec: a word is
appended while the running line length, counting single separating spaces,
stays within the limit; otherwise the current (nonempty) line is emitted and
the word starts a new line. Lines are the accumulated words joined by single
spaces. -/
def wrapSpecLoop (max_len : Nat) : List String → List String → String → List String
  | [], lines, cur => if cur ≠ "" then lines ++ [cur] else lines
  | w :: rest, lines, cur =>
    if (if cur = "" then w else cur ++ " " ++ w).length ≤ max_len then
      wrapSpecLoop max_len rest lines (if cur = "" then w else cur ++ " " ++ w)
    else
      wrapSpecLoop max_len rest (if cur = "" then lines else lines ++ [cur]) w

/-- Reference greedy wrapping of a text. -/
def wrapSpec (text : String) (max_len : Nat) : List String :=
  wrapSpecLoop max_len (pySplit text) [] ""

/-- A word as produced by the splitter: nonempty, no whitespace characters. -/
def IsWord (w : String) : Prop := w.data ≠ [] ∧ ∀ c ∈ w.data, isWS c = false

theorem sdata_append (s t : String) : (s ++ t).data = s.data ++ t.data := by
  cases s
  cases t
  rfl

theorem slength_data (s : String) : s.length = s.data.length := rfl

theorem smk_data (s : String) : (⟨s.data⟩ : String) = s := by
  cases s
  rfl

theorem sdata_space_append (cur w : String) :
    (cur ++ " " ++ w).data = cur.data ++ ' ' :: w.data := by
  rw [sdata_append, sdata_append]
  simp

/-- The ends of a pending wrap line: nonempty, no whitespace at either end. -/
def WordEnds (s : String) : Prop :=
  s.data ≠ [] ∧ (∀ c ∈ s.data.head?, isWS c = false) ∧
    (∀ c ∈ s.data.getLast?, isWS c = false)

theorem IsWord.wordEnds {w : String} (h : IsWord w) : WordEnds w := by
  refine ⟨h.1, ?_, ?_⟩
  · intro c hc
    exact h.2 c (List.mem_of_mem_head? hc)
  · intro c hc
    apply h.2 c
    have hr : c ∈ w.data.reverse.head? := by
      rw [List.head?_reverse]
      exact hc
    have := List.mem_of_mem_head? hr
    simpa using this

theorem stripLeft_of_head {l : List Char} (h : ∀ c ∈ l.head?, isWS c = false) :
    stripLeft l = l := by
  cases l with
  | nil => rfl
  | cons c t =>
    have hc : isWS c = false := h c (by simp)
    simp [stripLeft, List.dropWhile_cons, hc]

theorem stripRight_of_getLast {l : List Char} (h : ∀ c ∈ l.getLast?, isWS c = false) :
    stripRight l = l := by
  unfold stripRight
  cases hr : l.reverse with
  | nil =>
    have : l = [] := by simpa using congrArg List.reverse hr
    simp [this]
  | cons c t =>
    have hc : isWS c = false := by
      apply h c
      rw [← List.head?_reverse, hr]
      simp
    rw [List.dropWhile_cons_of_neg (by simp [hc]), ← hr]
    simp

theorem pyStrip_noop {s : String} (h : WordEnds s) : pyStrip s = s := by
  unfold pyStrip
  rw [stripLeft_of_head h.2.1, stripRight_of_getLast h.2.2, smk_data]

theorem pyStrip_empty_word {w : String} (h : IsWord w) :
    pyStrip ("" ++ " " ++ w) = w := by
  have hd : ("" ++ " " ++ w).data = ' ' :: w.data := by
    rw [sdata_space_append]
    rfl
  unfold pyStrip
  rw [hd]
  have h1 : stripLeft (' ' :: w.data) = w.data := by
    unfold stripLeft
    rw [List.dropWhile_cons_of_pos (by simp [isWS])]
    obtain ⟨c, t, hct⟩ : ∃ c t, w.data = c :: t := by
      cases hw : w.data with
      | nil => exact absurd hw h.1
      | cons c t => exact ⟨c, t, rfl⟩
    rw [hct]
    rw [List.dropWhile_cons_of_neg]
    simp [h.2 c (by rw [hct]; simp)]
  rw [h1, stripRight_of_getLast, smk_data]
  intro c hc
  apply h.2 c
  have hr : c ∈ w.data.reverse.head? := by rw [List.head?_reverse]; exact hc
  simpa using List.mem_of_mem_head? hr

theorem wordEnds_append {cur w : String} (hc : WordEnds cur) (hw : IsWord w) :
    WordEnds (cur ++ " " ++ w) := by
  obtain ⟨c0, t0, h0⟩ : ∃ c t, cur.data = c :: t := by
    cases hl : cur.data with
    | nil => exact absurd hl hc.1
    | cons c t => exact ⟨c, t, rfl⟩
  refine ⟨?_, ?_, ?_⟩
  · rw [sdata_space_append, h0]
    simp
  · intro c hcm
    rw [sdata_space_append] at hcm
    rw [List.head?_append] at hcm
    rw [h0] at hcm
    simp at hcm
    subst hcm
    exact hc.2.1 c0 (by rw [h0]; simp)
  · intro c hcm
    rw [sdata_space_append] at hcm
    have hW : (cur.data ++ ' ' :: w.data).getLast? = w.data.getLast? := by
      rw [List.getLast?_append]
      obtain ⟨cw, tw, hwd⟩ : ∃ cc tt, w.data = cc :: tt := by
        cases hl : w.data with
        | nil => exact absurd hl hw.1
        | cons cc tt => exact ⟨cc, tt, rfl⟩
      rw [List.getLast?_cons, hwd]
      cases h : (cw :: tw).getLast? with
      | none => simp [List.getLast?_cons] at h
      | some d => simp [Option.or]
    rw [hW] at hcm
    apply hw.2 c
    have hr : c ∈ w.data.reverse.head? := by rw [List.head?_reverse]; exact hcm
    simpa using List.mem_of_mem_head? hr

theorem wordEnds_ne_empty {s : String} (h : WordEnds s) : s ≠ "" := by
  intro he
  apply h.1
  rw [he]

/-- With a nonempty, whitespace-trimmed pending line the source loop and the
reference loop coincide, for every width. -/
theorem wrapLoop_eq_spec (n : Nat) :
    ∀ ws lines cur, (∀ w ∈ ws, IsWord w) → WordEnds cur →
      wrapLoop n ws lines cur = wrapSpecLoop n ws lines cur := by
  intro ws
  induction ws with
  | nil =>
    intro lines cur _ _
    rfl
  | cons w rest ih =>
    intro lines cur hws hcur
    have hw : IsWord w := hws w (by simp)
    have hrest : ∀ v ∈ rest, IsWord v := fun v hv => hws v (by simp [hv])
    have hne : cur ≠ "" := wordEnds_ne_empty hcur
    have hlen : (cur ++ " " ++ w).length = cur.length + w.length + 1 := by
      have h1 : (cur ++ " " ++ w).data = cur.data ++ ' ' :: w.data := sdata_space_append cur w
      show ((cur ++ " " ++ w).data).length = cur.data.length + w.data.length + 1
      rw [h1]
      simp only [List.length_append, List.length_cons]
      omega
    rw [wrapLoop, wrapSpecLoop]
    by_cases hfit : cur.length + w.length + 1 ≤ n
    · rw [if_pos hfit, if_pos (by rw [if_neg hne, hlen]; omega)]
      rw [if_neg hne]
      rw [pyStrip_noop (wordEnds_append hcur hw)]
      exact ih lines (cur ++ " " ++ w) hrest (wordEnds_append hcur hw)
    · rw [if_neg hfit, if_neg (by rw [if_neg hne, hlen]; omega)]
      rw [if_neg hne]
      exact ih (lines ++ [cur]) w hrest hw.wordEnds

theorem wordsRec_nil_of_allws : ∀ l, (∀ c ∈ l, isWS c = true) → wordsRec l = [] := by
  intro l
  induction l using wordsRec.induct with
  | case1 =>
    intro _
    rw [wordsRec]
  | case2 c cs h ih =>
    intro hall
    rw [wordsRec, if_pos h]
    exact ih (fun d hd => hall d (by simp [hd]))
  | case3 c cs h ih =>
    intro hall
    exact absurd (hall c (by simp)) (by simpa using h)

theorem wordsRec_append_sep {d : Char} (hd : isWS d = true) :
    ∀ a b, wordsRec (a ++ d :: b) = wordsRec a ++ wordsRec b := by
  intro a
  induction a using wordsRec.induct with
  | case1 =>
    intro b
    rw [List.nil_append]
    simp only [wordsRec]
    rw [if_pos hd]
    simp
  | case2 c cs h ih =>
    intro b
    rw [List.cons_append, wordsRec, if_pos h, wordsRec, if_pos h]
    exact ih b
  | case3 c cs h ih =>
    intro b
    rw [List.cons_append, wordsRec, if_neg h, wordsRec, if_neg h]
    have hdp : (fun e => !isWS e) d = false := by simp [hd]
    by_cases hcs : cs.dropWhile (fun e => !isWS e) = []
    · have hall : ∀ x ∈ cs, (fun e => !isWS e) x = true := by
        intro x hx
        exact (List.dropWhile_eq_nil_iff).1 hcs x hx
      have htw : cs.takeWhile (fun e => !isWS e) = cs :=
        (List.takeWhile_eq_self_iff).2 hall
      rw [List.takeWhile_append_of_pos hall, List.dropWhile_append_of_pos hall]
      rw [List.takeWhile_cons_of_neg (by simp [hd]), List.dropWhile_cons_of_neg (by simp [hd])]
      rw [wordsRec, if_pos hd, htw, hcs, wordsRec]
      simp
    · have hlen : ¬ (cs.takeWhile (fun e => !isWS e)).length = cs.length := by
        intro hlen
        apply hcs
        have hsum := congrArg List.length (List.takeWhile_append_dropWhile (fun e => !isWS e) cs)
        rw [List.length_append, hlen] at hsum
        have : (cs.dropWhile (fun e => !isWS e)).length = 0 := by omega
        exact List.length_eq_zero.1 this
      rw [List.takeWhile_append, if_neg hlen]
      rw [List.dropWhile_append, if_neg (by simpa [List.isEmpty_iff] using hcs)]
      rw [ih b]
      simp

theorem wordsRec_append_allws (a t : List Char) (h : ∀ c ∈ t, isWS c = true) :
    wordsRec (a ++ t) = wordsRec a := by
  cases t with
  | nil => simp
  | cons d t2 =>
    rw [wordsRec_append_sep (h d (by simp)) a t2]
    rw [wordsRec_nil_of_allws t2 (fun c hc => h c (by simp [hc]))]
    simp

theorem wordsRec_stripLeft (l : List Char) : wordsRec (stripLeft l) = wordsRec l := by
  induction l with
  | nil => rfl
  | cons c cs ih =>
    by_cases hc : isWS c = true
    · rw [wordsRec, if_pos hc]
      rw [show stripLeft (c :: cs) = stripLeft cs by simp [stripLeft, List.dropWhile_cons, hc]]
      exact ih
    · rw [show stripLeft (c :: cs) = c :: cs by
        simp only [stripLeft]
        exact List.dropWhile_cons_of_neg (by simpa using hc)]

theorem wordsRec_stripRight (l : List Char) : wordsRec (stripRight l) = wordsRec l := by
  have hdec : l = stripRight l ++ (l.reverse.takeWhile isWS).reverse := by
    have h1 := congrArg List.reverse (List.takeWhile_append_dropWhile isWS l.reverse)
    rw [List.reverse_append, List.reverse_reverse] at h1
    exact h1.symm
  have hall : ∀ c ∈ (l.reverse.takeWhile isWS).reverse, isWS c = true := by
    intro c hc
    exact List.mem_takeWhile_imp (List.mem_reverse.1 hc)
  calc wordsRec (stripRight l)
      = wordsRec (stripRight l ++ (l.reverse.takeWhile isWS).reverse) :=
        (wordsRec_append_allws _ _ hall).symm
    _ = wordsRec l := by rw [← hdec]

theorem pySplit_eq_wordsRec (s : String) :
    pySplit s = (wordsRec s.data).map (fun l => (⟨l⟩ : String)) := by
  rw [pySplit, splitAux_eq_wordsRec]

theorem pySplit_strip (s : String) : pySplit (pyStrip s) = pySplit s := by
  rw [pySplit_eq_wordsRec, pySplit_eq_wordsRec]
  show ((wordsRec (stripRight (stripLeft s.data))).map fun l => (⟨l⟩ : String))
      = (wordsRec s.data).map fun l => (⟨l⟩ : String)
  rw [wordsRec_stripRight, wordsRec_stripLeft]

theorem pySplit_append_sep (a b : String) :
    pySplit (a ++ " " ++ b) = pySplit a ++ pySplit b := by
  rw [pySplit_eq_wordsRec, pySplit_eq_wordsRec, pySplit_eq_wordsRec]
  rw [sdata_space_append]
  rw [wordsRec_append_sep (by decide) a.data b.data]
  simp

theorem pySplit_word {w : String} (h : IsWord w) : pySplit w = [w] := by
  rw [pySplit_eq_wordsRec]
  obtain ⟨c, rest, hw⟩ : ∃ c t, w.data = c :: t := by
    cases hl : w.data with
    | nil => exact absurd hl h.1
    | cons c t => exact ⟨c, t, rfl⟩
  have hcn : isWS c = false := h.2 c (by rw [hw]; simp)
  have hrest : ∀ x ∈ rest, (fun e => !isWS e) x = true := by
    intro x hx
    simp [h.2 x (by rw [hw]; simp [hx])]
  rw [hw, wordsRec, if_neg (by simp [hcn])]
  rw [(List.takeWhile_eq_self_iff).2 hrest, (List.dropWhile_eq_nil_iff).2 hrest]
  rw [wordsRec]
  have : (⟨c :: rest⟩ : String) = w := by rw [← hw, smk_data]
  simp [this]

theorem pySplit_empty : pySplit "" = [] := by decide

/-- Word conservation of the source loop: the words of the emitted lines are
the words already flushed, then the pending line, then the remaining input. -/
theorem wrapLoop_words_join (n : Nat) :
    ∀ ws lines cur, (∀ w ∈ ws, IsWord w) →
      ((wrapLoop n ws lines cur).map pySplit).flatten
        = (lines.map pySplit).flatten ++ pySplit cur ++ ws := by
  intro ws
  induction ws with
  | nil =>
    intro lines cur _
    rw [wrapLoop]
    by_cases hc : cur = ""
    · rw [if_neg (by simp [hc]), hc, pySplit_empty]
      simp
    · rw [if_pos hc]
      simp
  | cons w rest ih =>
    intro lines cur hws
    have hw : IsWord w := hws w (by simp)
    have hrest : ∀ v ∈ rest, IsWord v := fun v hv => hws v (by simp [hv])
    rw [wrapLoop]
    by_cases hfit : cur.length + w.length + 1 ≤ n
    · rw [if_pos hfit, ih _ _ hrest]
      rw [pySplit_strip, pySplit_append_sep, pySplit_word hw]
      simp
    · rw [if_neg hfit, ih _ _ hrest]
      rw [pySplit_word hw]
      simp

/-- A word of ninety characters, at the wrap width boundary. -/
def wordNinety : String := ⟨List.replicate 90 'a'⟩

/-- Claim C6 counterexample: on a single word of exactly the maximum width,
wrap counts a separating space even though the pending line is empty, emits
a spurious empty line and differs from the reference greedy wrapping. -/
theorem wrap_ne_greedy_at_boundary :
    wrap wordNinety 90 = ["", wordNinety] ∧ wrapSpec wordNinety 90 = [wordNinety] ∧
      wrap wordNinety 90 ≠ wrapSpec wordNinety 90 := by decide

/-- Claim C6 (amended): wrap(text, 90) equals the reference greedy wrapping
whenever the first whitespace-split word of the text is shorter than the
width 90; the source accepts a word onto the empty pending line only when
len(w) + 1 fits, so a first word of length at least 90 yields a leading
empty line instead. -/
theorem wrap_eq_greedy_of_short_first_word (text : String)
    (h : ∀ w, (pySplit text).head? = some w → w.length < 90) :
    wrap text 90 = wrapSpec text 90 := by
  rw [wrap, wrapSpec]
  have hwords : ∀ v ∈ pySplit text, IsWord v := fun v hv => pySplit_words text v hv
  cases hsp : pySplit text with
  | nil => rfl
  | cons w rest =>
    have hw : IsWord w := by
      apply hwords
      rw [hsp]
      simp
    have hrest : ∀ v ∈ rest, IsWord v := by
      intro v hv
      apply hwords
      rw [hsp]
      simp [hv]
    have hlen : w.length < 90 := h w (by rw [hsp]; rfl)
    rw [wrapLoop, wrapSpecLoop]
    have h0 : "".length = 0 := rfl
    rw [if_pos (by rw [h0]; omega)]
    rw [if_pos (by rw [if_pos rfl]; omega)]
    rw [if_pos rfl, pyStrip_empty_word hw]
    exact wrapLoop_eq_spec 90 rest [] w hrest hw.wordEnds

/-- Claim C6 amended witness. -/
theorem wrap_eq_greedy_of_short_first_word_witness :
    wrap "alpha beta gamma" 90 = wrapSpec "alpha beta gamma" 90 := by
  apply wrap_eq_greedy_of_short_first_word
  intro w hw
  have he : pySplit "alpha beta gamma" = ["alpha", "beta", "gamma"] := by decide
  rw [he] at hw
  simp at hw
  subst hw
  decide

/-- Claim C10: wrapping never drops, duplicates, reorders or alters a word:
the whitespace-split words of the lines of wrap(text, max_len), concatenated
in order, are exactly the whitespace-split words of the text. -/
theorem wrap_preserves_words (text : String) (max_len : Nat) (h : 0 < max_len) :
    ((wrap text max_len).map pySplit).flatten = pySplit text := by
  rw [wrap, wrapLoop_words_join max_len (pySplit text) [] ""
    (fun v hv => pySplit_words text v hv)]
  rw [pySplit_empty]
  simp

/-- Claim C10 witness. -/
theorem wrap_preserves_words_witness :
    0 < 3 ∧ ((wrap "ab cd" 3).map pySplit).flatten = pySplit "ab cd" :=
  ⟨by decide, wrap_preserves_words "ab cd" 3 (by decide)⟩

/- ------------------------------------------------------------------ -/
/- XHTML content flattening: method extract_xhtml                      -/
/- ------------------------------------------------------------------ -/

/-- Ordered content produced by the flattener: the tagged tuples
("text", str), ("image", Path), ("ole", Path) of the source. -/
inductive ContentItem where
  | text (s : String)
  | image (path : String)
  | ole (path : String)
deriving DecidableEq

/-- An ElementTree element: tag, attributes, leading text, trailing text
(the tail that follows the element inside its parent), children. -/
inductive Elem where
  | mk (tag : String) (attrib : List (String × String)) (text : Option String)
      (tail : Option String) (children : List Elem)

def Elem.tag : Elem → String
  | .mk t _ _ _ _ => t

def Elem.attrib : Elem → List (String × String)
  | .mk _ a _ _ _ => a

def Elem.text : Elem → Option String
  | .mk _ _ tx _ _ => tx

def Elem.tail : Elem → Option String
  | .mk _ _ _ tl _ => tl

def Elem.children : Elem → List Elem
  | .mk _ _ _ _ cs => cs

/-- The text emission of the source: a text field is emitted when truthy and
nonblank after stripping, whitespace runs collapsed, entities unescaped. -/
def textItems : Option String → List ContentItem
  | none => []
  | some s =>
    if s ≠ "" ∧ pyStrip s ≠ "" then
      [ContentItem.text (pyUnescapeStr (collapseWS (pyStrip s)))]
    else []

/-- The image and embedded-object emission for one child node: an img child
with a truthy src yields an image reference, an object child with a truthy
data yields an ole reference, resolved against the document directory. -/
def specialItems (bd : String) (c : Elem) : List ContentItem :=
  if localTag c.tag = "img" then
    match attrGet c.attrib "src" with
    | some s => if s ≠ "" then [ContentItem.image (resolvePath bd s)] else []
    | none => []
  else if localTag c.tag = "object" then
    match attrGet c.attrib "data" with
    | some d => if d ≠ "" then [ContentItem.ole (resolvePath bd d)] else []
    | none => []
  else []

mutual

/-- The nested walk closure of extract_xhtml: appends to the shared content
list, modelled by threading the accumulated list. -/
def walkAcc (bd : String) : Elem → List ContentItem → List ContentItem
  | .mk _ _ tx _ cs, acc => walkChildren bd cs (acc ++ textItems tx)

/-- The child loop of walk: emit the special reference for the child, walk
into the child, then emit the child tail text. -/
def walkChildren (bd : String) : List Elem → List ContentItem → List ContentItem
  | [], acc => acc
  | c :: rest, acc =>
    walkChildren bd rest (walkAcc bd c (acc ++ specialItems bd c) ++ textItems c.tail)

end

/-- Source method extract_xhtml: the empty sequence for an absent fragment,
else the walk from an empty content list. -/
def extract_xhtml (bd : String) : Option Elem → List ContentItem
  | none => []
  | some e => walkAcc bd e []

mutual

/-- Flattening as the specification words it: the node text first, then the
children contributions in document order. -/
def flatElem (bd : String) : Elem → List ContentItem
  | .mk _ _ tx _ cs => textItems tx ++ flatChildren bd cs

/-- Per-child contribution as the specification words it: the image or
embedded-object reference, then the full flattened subtree of the child,
then the child trailing text immediately after. -/
def flatChildren (bd : String) : List Elem → List ContentItem
  | [] => []
  | c :: rest => specialItems bd c ++ flatElem bd c ++ textItems c.tail ++ flatChildren bd rest

end

/-- Flattening of an optional fragment as the specification words it. -/
def flattenSpec (bd : String) : Option Elem → List ContentItem
  | none => []
  | some e => flatElem bd e

mutual

theorem walkAcc_eq (bd : String) (e : Elem) (acc : List ContentItem) :
    walkAcc bd e acc = acc ++ flatElem bd e := by
  match e with
  | .mk t a tx tl cs =>
    rw [walkAcc, flatElem, walkChildren_eq bd cs (acc ++ textItems tx)]
    simp

theorem walkChildren_eq (bd : String) (cs : List Elem) (acc : List ContentItem) :
    walkChildren bd cs acc = acc ++ flatChildren bd cs := by
  match cs with
  | [] =>
    rw [walkChildren, flatChildren]
    simp
  | c :: rest =>
    rw [walkChildren, flatChildren,
        walkChildren_eq bd rest (walkAcc bd c (acc ++ specialItems bd c) ++ textItems c.tail),
        walkAcc_eq bd c (acc ++ specialItems bd c)]
    simp

end

/-- Claim C5: extract_xhtml returns items in exact document order as the
specification describes it: the node leading text first, then for each child
in order the image or object reference (emitted before the recursion into
that child, which still occurs), the full flattened subtree of the child,
and that child trailing text immediately after; an absent fragment gives the
empty sequence. -/
theorem extract_xhtml_order (bd : String) (x : Option Elem) :
    extract_xhtml bd x = flattenSpec bd x := by
  cases x with
  | none => rfl
  | some e =>
    rw [extract_xhtml, flattenSpec, walkAcc_eq bd e []]
    simp

/- ------------------------------------------------------------------ -/
/- Spec objects: get_xhtml_attribute and extract_objects               -/
/- ------------------------------------------------------------------ -/

/-- One entry of the VALUES collection of a spec object: the text of its
ATTRIBUTE-DEFINITION-XHTML-REF descendant (when that element is present)
and its THE-VALUE fragment (when present). -/
structure AttrValue where
  ref : Option String
  theValue : Option Elem

/-- A SPEC-OBJECT definition as extract_objects reads it: the IDENTIFIER
attribute (absent when the definition lacks it), the THE-VALUE attribute of
the first ATTRIBUTE-VALUE-INTEGER descendant (absent when there is none),
and the VALUES collection (absent when there is none). -/
structure SpecObject where
  identifier : Option String
  intValue : Option String
  values : Option (List AttrValue)

/-- The loop of get_xhtml_attribute: the first value whose definition
reference contains the field name wins, and its fragment is flattened. -/
def findXhtmlVal (bd : String) (name : String) : List AttrValue → List ContentItem
  | [] => []
  | v :: rest =>
    match v.ref with
    | some t =>
      if containsSub t name then extract_xhtml bd v.theValue
      else findXhtmlVal bd name rest
    | none => findXhtmlVal bd name rest

/-- Source method get_xhtml_attribute. -/
def get_xhtml_attribute (bd : String) (values : Option (List AttrValue))
    (name : String) : List ContentItem :=
  match values with
  | none => []
  | some vs => findXhtmlVal bd name vs

/-- A repository record as extract_objects stores it; req_id keeps the
optional raw identifier that Python would store when the integer field does
not apply, including the None of a definition with no IDENTIFIER. -/
structure RObj where
  req_id : Option String
  heading : String
  content : List ContentItem
  level : Nat
  hnum : String
deriving DecidableEq

/-- The heading accumulation of extract_objects: concatenate the text items
with a trailing space each, then strip. -/
def headingOfItems (items : List ContentItem) : String :=
  pyStrip (items.foldl (fun acc it =>
    match it with
    | ContentItem.text v => acc ++ v ++ " "
    | ContentItem.image _ => acc
    | ContentItem.ole _ => acc) "")

/-- The body of the extract_objects loop for one definition: number is the
THE-VALUE of the integer element when present, else the empty string; the
record is keyed by the identifier, which may be absent. -/
def processObject (bd : String) (o : SpecObject) : Option String × RObj :=
  let number :=
    match o.intValue with
    | some v => v
    | none => ""
  ⟨o.identifier,
    ⟨if pyIsDigit number then some ("REQ-" ++ zfill number 6) else o.identifier,
     headingOfItems (get_xhtml_attribute bd o.values "OBJECTHEADING"),
     get_xhtml_attribute bd o.values "OBJECTTEXT",
     0, ""⟩⟩

/-- Source method extract_objects: the dict insertion loop in order; the
source assumes identifier uniqueness, so the association list is the dict. -/
def extract_objects (bd : String) (objs : List SpecObject) : List (Option String × RObj) :=
  objs.map (processObject bd)

/-- Claim C3 counterexample: a definition with no identifier attribute does
not abort extract_objects; a repository entry keyed by the absent
identifier is created, with the absent identifier as its display code. -/
theorem extract_objects_missing_identifier_cex :
    extract_objects "" [⟨none, none, none⟩] = [(none, ⟨none, "", [], 0, ""⟩)] := by
  decide

/-- Claim C3 (amended): repository construction never fails; it produces
exactly one entry per definition, keyed by that definition identifier
attribute, present or not. -/
theorem extract_objects_total (bd : String) (objs : List SpecObject) :
    (extract_objects bd objs).map Prod.fst = objs.map SpecObject.identifier := by
  rw [extract_objects, List.map_map]
  rfl

/-- The display code as the specification words it: a present integer field
whose value is a nonnegative integer literal gives the zero-padded
REQ-code of width six; otherwise the raw identifier. -/
def displayCodeSpec (o : SpecObject) : Option String :=
  match o.intValue with
  | some v => if pyIsDigit v then some ("REQ-" ++ zfill v 6) else o.identifier
  | none => o.identifier

/-- Claim C7: the display code of every definition follows the
specification rule, and the value 42 formats as REQ-000042. -/
theorem display_code_formatting :
    (∀ bd o, (processObject bd o).2.req_id = displayCodeSpec o) ∧
      (processObject "" ⟨some "X", some "42", none⟩).2.req_id = some "REQ-000042" := by
  constructor
  · intro bd o
    rcases o with ⟨id, iv, vals⟩
    cases iv with
    | none =>
      have h0 : pyIsDigit "" = false := by decide
      simp [processObject, displayCodeSpec, h0]
    | some v => rfl
  · decide

/- ------------------------------------------------------------------ -/
/- Hierarchy numbering: extract_hierarchy and _walk_hierarchy          -/
/- ------------------------------------------------------------------ -/

mutual

/-- A SPEC-HIERARCHY node: the OBJECT/SPEC-OBJECT-REF content (outer
option: the element may be absent; inner option: its text may be absent)
and the nested CHILDREN nodes (an empty list doubles for an absent
CHILDREN element, which the source treats the same way). -/
inductive SpecHier where
  | mk (ref : Option (Option String)) (children : SpecHierList)

/-- The sibling list of SPEC-HIERARCHY nodes, its own inductive so that the
walker is structurally recursive. -/
inductive SpecHierList where
  | nil
  | cons (head : SpecHier) (tail : SpecHierList)

end

def SpecHier.ref : SpecHier → Option (Option String)
  | .mk r _ => r

def SpecHier.children : SpecHier → SpecHierList
  | .mk _ cs => cs

/-- The dotted hierarchy number of a counter path, the join of
_walk_hierarchy. -/
def hnumOf (current : List Nat) : String := String.intercalate "." (current.map toString)

mutual

/-- One iteration of the _walk_hierarchy loop at sibling path current: emit
the assignment (identifier, hnum, level) when the reference resolves, then
recurse into the children with the current path, resolved or not. -/
def walkOne (objs : List (Option String)) (current : List Nat) (level : Nat) :
    SpecHier → List (Option String × String × Nat)
  | .mk ref children =>
    (match ref with
     | some r => if r ∈ objs then [(r, hnumOf current, level)] else []
     | none => []) ++
    walkList objs current (level + 1) 0 children

/-- Source method _walk_hierarchy over a sibling list: index counts the
processed siblings, each sibling is numbered counters[:level] plus the
incremented index. The result lists, in traversal order, the
(identifier, hierarchy number, level) assignments the source performs on
self.objects and self.hierarchy. -/
def walkList (objs : List (Option String)) (counters : List Nat) (level : Nat) (index : Nat) :
    SpecHierList → List (Option String × String × Nat)
  | .nil => []
  | .cons sh rest =>
    walkOne objs (counters.take level ++ [index + 1]) level sh ++
    walkList objs counters level (index + 1) rest

end

/-- Source method extract_hierarchy: every SPECIFICATION with a CHILDREN
element starts its own walk with empty counters at level 0; objs is the set
of keys of self.objects. -/
def extract_hierarchy (objs : List (Option String)) (specs : List (Option SpecHierList)) :
    List (Option String × String × Nat) :=
  (specs.map (fun s =>
    match s with
    | some cs => walkList objs [] 0 0 cs
    | none => [])).flatten

/-- The traversal self.hierarchy: the identifiers of the assignments in
order. -/
def traversalOf (assigns : List (Option String × String × Nat)) : List (Option String) :=
  assigns.map (fun e => e.1)

mutual

/-- All object references of a node subtree, with multiplicity, in document
order. -/
def refsOne : SpecHier → List (Option String)
  | .mk ref children =>
    (match ref with
     | some r => [r]
     | none => []) ++ refsList children

/-- All object references of a sibling forest. -/
def refsList : SpecHierList → List (Option String)
  | .nil => []
  | .cons sh rest => refsOne sh ++ refsList rest

end

/-- All object references of all specifications. -/
def refsOfSpecs (specs : List (Option SpecHierList)) : List (Option String) :=
  (specs.map (fun s =>
    match s with
    | some cs => refsList cs
    | none => [])).flatten

mutual

theorem walkOne_fst_mem (objs : List (Option String)) (current : List Nat) (level : Nat)
    (sh : SpecHier) : ∀ e ∈ walkOne objs current level sh, e.1 ∈ objs := by
  match sh with
  | .mk ref children =>
    intro e he
    simp only [walkOne] at he
    rcases List.mem_append.1 he with he | he
    · match ref with
      | some r =>
        simp only at he
        by_cases hr : r ∈ objs
        · rw [if_pos hr] at he
          have : e = (r, hnumOf current, level) := by simpa using he
          rw [this]
          exact hr
        · rw [if_neg hr] at he
          simp at he
      | none => simp at he
    · exact walkList_fst_mem objs current (level + 1) 0 children e he

theorem walkList_fst_mem (objs : List (Option String)) (counters : List Nat) (level : Nat)
    (index : Nat) (hs : SpecHierList) :
    ∀ e ∈ walkList objs counters level index hs, e.1 ∈ objs := by
  match hs with
  | .nil =>
    intro e he
    simp only [walkList] at he
    simp at he
  | .cons sh rest =>
    intro e he
    simp only [walkList] at he
    rcases List.mem_append.1 he with he | he
    · exact walkOne_fst_mem objs (counters.take level ++ [index + 1]) level sh e he
    · exact walkList_fst_mem objs counters level (index + 1) rest e he

end

mutual

theorem walkOne_fst_sublist (objs : List (Option String)) (current : List Nat) (level : Nat)
    (sh : SpecHier) : List.Sublist ((walkOne objs current level sh).map (fun e => e.1)) (refsOne sh) := by
  match sh with
  | .mk ref children =>
    simp only [walkOne, refsOne]
    rw [List.map_append]
    apply List.Sublist.append
    · match ref with
      | some r =>
        dsimp only
        by_cases hr : r ∈ objs
        · rw [if_pos hr]
          simp
        · rw [if_neg hr]
          simp
      | none => simp
    · exact walkList_fst_sublist objs current (level + 1) 0 children

theorem walkList_fst_sublist (objs : List (Option String)) (counters : List Nat) (level : Nat)
    (index : Nat) (hs : SpecHierList) :
    List.Sublist ((walkList objs counters level index hs).map (fun e => e.1)) (refsList hs) := by
  match hs with
  | .nil =>
    simp only [walkList, refsList]
    simp
  | .cons sh rest =>
    simp only [walkList, refsList]
    rw [List.map_append]
    exact List.Sublist.append
      (walkOne_fst_sublist objs (counters.take level ++ [index + 1]) level sh)
      (walkList_fst_sublist objs counters level (index + 1) rest)

end

theorem traversal_sublist_refs (objs : List (Option String))
    (specs : List (Option SpecHierList)) :
    List.Sublist (traversalOf (extract_hierarchy objs specs)) (refsOfSpecs specs) := by
  induction specs with
  | nil => simp [traversalOf, extract_hierarchy, refsOfSpecs]
  | cons s rest ih =>
    rw [traversalOf, extract_hierarchy, refsOfSpecs] at *
    rw [List.map_cons, List.flatten_cons, List.map_cons, List.flatten_cons, List.map_append]
    apply List.Sublist.append
    · match s with
      | some cs => exact walkList_fst_sublist objs [] 0 0 cs
      | none => simp
    · exact ih

/-- Claim C2 (amended): every identifier of the traversal resolves to a key
of the repository mapping, unconditionally; and the traversal has no
duplicate identifier provided no object reference occurs in more than one
hierarchy node. A repeated reference is walked and appended each time it
occurs, so the unconditional no-duplicate reading fails. -/
theorem traversal_resolves_and_nodup (objs : List (Option String))
    (specs : List (Option SpecHierList)) :
    (∀ id ∈ traversalOf (extract_hierarchy objs specs), id ∈ objs) ∧
      ((refsOfSpecs specs).Nodup → (traversalOf (extract_hierarchy objs specs)).Nodup) := by
  constructor
  · intro id hid
    rw [traversalOf] at hid
    rcases List.mem_map.1 hid with ⟨e, he, rfl⟩
    rw [extract_hierarchy] at he
    rcases List.mem_flatten.1 he with ⟨part, hpart, hin⟩
    rcases List.mem_map.1 hpart with ⟨s, _, rfl⟩
    match s with
    | some cs => exact walkList_fst_mem objs [] 0 0 cs e hin
    | none => simp at hin
  · intro hnd
    exact hnd.sublist (traversal_sublist_refs objs specs)

/-- Claim C2 counterexample: two hierarchy nodes referencing the same known
object put that identifier twice into the traversal. -/
theorem traversal_duplicate_cex :
    traversalOf (extract_hierarchy [some "A"]
        [some (.cons (.mk (some (some "A")) .nil) (.cons (.mk (some (some "A")) .nil) .nil))])
      = [some "A", some "A"] ∧
      ¬ (traversalOf (extract_hierarchy [some "A"]
        [some (.cons (.mk (some (some "A")) .nil)
          (.cons (.mk (some (some "A")) .nil) .nil))])).Nodup := by
  decide

/-- Claim C2 amended witness. -/
theorem traversal_resolves_and_nodup_witness :
    (∀ id ∈ traversalOf (extract_hierarchy [some "A"]
        [some (.cons (.mk (some (some "A")) .nil) .nil)]), id ∈ [some "A"]) ∧
      (traversalOf (extract_hierarchy [some "A"]
        [some (.cons (.mk (some (some "A")) .nil) .nil)])).Nodup :=
  ⟨(traversal_resolves_and_nodup [some "A"]
      [some (.cons (.mk (some (some "A")) .nil) .nil)]).1,
    (traversal_resolves_and_nodup [some "A"]
      [some (.cons (.mk (some (some "A")) .nil) .nil)]).2 (by decide)⟩

/-- Claim C4: the sibling counter advances for every child node, resolved
or not: a sibling with an unresolved reference contributes nothing to the
traversal, its children are recursed with the skipped number path, and the
remaining siblings continue from the incremented index; concretely, under a
root numbered 1 the siblings [unknown, A, B] receive numbers 1.2 and 1.3. -/
theorem sibling_counter :
    (∀ (objs : List (Option String)) (counters : List Nat) (level index : Nat)
      (r : Option String) (kids : SpecHierList) (rest : SpecHierList), r ∉ objs →
      walkList objs counters level index (.cons (.mk (some r) kids) rest)
        = walkList objs (counters.take level ++ [index + 1]) (level + 1) 0 kids
          ++ walkList objs counters level (index + 1) rest) ∧
    extract_hierarchy [some "R", some "A", some "B"]
        [some (.cons (.mk (some (some "R"))
          (.cons (.mk (some (some "U")) .nil)
            (.cons (.mk (some (some "A")) .nil)
              (.cons (.mk (some (some "B")) .nil) .nil)))) .nil)]
      = [(some "R", "1", 0), (some "A", "1.2", 1), (some "B", "1.3", 1)] := by
  constructor
  · intro objs counters level index r kids rest hr
    simp only [walkList, walkOne]
    rw [if_neg hr]
    simp
  · decide

/-- Claim C4 witness. -/
theorem sibling_counter_witness :
    walkList [some "A"] [] 0 0
        (.cons (.mk (some (some "U")) .nil) (.cons (.mk (some (some "A")) .nil) .nil))
      = walkList [some "A"] ([].take 0 ++ [0 + 1]) (0 + 1) 0 .nil
        ++ walkList [some "A"] [] 0 (0 + 1) (.cons (.mk (some (some "A")) .nil) .nil) :=
  sibling_counter.1 [some "A"] [] 0 0 (some "U") .nil
    (.cons (.mk (some (some "A")) .nil) .nil) (by decide)

/- ------------------------------------------------------------------ -/
/- PDF layout: method generate_pdf                                     -/
/- ------------------------------------------------------------------ -/

/-- reportlab unit: mm = 72 / 25.4 points. -/
def mm : ℚ := 72 / 25.4

/-- A4 page width, 210 mm in points. -/
def pageWidth : ℚ := 210 * mm

/-- A4 page height, 297 mm in points. -/
def pageHeight : ℚ := 297 * mm

/-- The margin of generate_pdf: 20 mm. -/
def margin : ℚ := 20 * mm

/-- The near-bottom test value of the source, the literal margin + 80 of
its page-break condition. -/
def threshold : ℚ := margin + 80

/-- One drawing action of the canvas, tagged by the emitting call site of
generate_pdf; textLine records the zero-based index of the wrapped line
inside its text item, an instrumentation of the inner line loop. Font and
fill-colour state changes are not recorded: no claim mentions them. -/
inductive DrawOp where
  | title (x y : ℚ) (s : String)
  | heading (x y : ℚ) (s : String)
  | textLine (i : Nat) (x y : ℚ) (s : String)
  | image (x y w h : ℚ) (p : String)
  | oleLabel (x y : ℚ) (s : String)
  | oleLink (target : String) (x1 y1 x2 y2 : ℚ)
  | pageBreak

/-- The page-break check the source performs before every heading and every
content item: below the near-bottom value, new_page() resets the cursor to
the top of the content area. -/
def checkBreak (y : ℚ) : List DrawOp × ℚ :=
  if y < margin + 80 then ([DrawOp.pageBreak], pageHeight - margin) else ([], y)

/-- The inner line loop of the text branch: draw each wrapped line at the
cursor, consuming 12 points per line, with no page-break check. -/
def drawLines (indent : ℚ) : Nat → ℚ → List String → List DrawOp × ℚ
  | _, y, [] => ([], y)
  | i, y, line :: rest =>
    let next := drawLines indent (i + 1) (y - 12) rest
    (DrawOp.textLine i (indent + 10) y line :: next.1, next.2)

/-- The dispatch on one content item of generate_pdf. ex tells whether a
path exists on disk, sz gives the natural size an ImageReader would
report; both model the filesystem environment of the run. -/
def renderItem (ex : String → Bool) (sz : String → ℚ × ℚ) (indent : ℚ) (y : ℚ) :
    ContentItem → List DrawOp × ℚ
  | ContentItem.text v => drawLines indent 0 y (wrap v 90)
  | ContentItem.image p =>
    if ex p then
      (([DrawOp.image (indent + 10) (y - (sz p).2 * min ((pageWidth - indent - 20) / (sz p).1) (200 / (sz p).2))
          ((sz p).1 * min ((pageWidth - indent - 20) / (sz p).1) (200 / (sz p).2))
          ((sz p).2 * min ((pageWidth - indent - 20) / (sz p).1) (200 / (sz p).2)) p],
        y - ((sz p).2 * min ((pageWidth - indent - 20) / (sz p).1) (200 / (sz p).2) + 10)))
    else ([], y)
  | ContentItem.ole p =>
    ([DrawOp.oleLabel (indent + 10) y ("📎 Abrir objeto OLE: " ++ baseName p),
      DrawOp.oleLink (baseName p) (indent + 10) (y - 2) (indent + 260) (y + 10)],
      y - 14)

/-- The content loop of generate_pdf: the page-break check runs before
every item, then the item is dispatched. -/
def renderItems (ex : String → Bool) (sz : String → ℚ × ℚ) (indent : ℚ) :
    List ContentItem → ℚ → List DrawOp × ℚ
  | [], y => ([], y)
  | it :: rest, y =>
    let b := checkBreak y
    let d := renderItem ex sz indent b.2 it
    let r := renderItems ex sz indent rest d.2
    (b.1 ++ d.1 ++ r.1, r.2)

/-- One requirement of the object loop: page-break check, bold heading line
with hierarchy number, display code and heading, then the content items,
then the inter-requirement spacing of 10 points. -/
def renderObj (ex : String → Bool) (sz : String → ℚ × ℚ) (obj : RObj) (y : ℚ) :
    List DrawOp × ℚ :=
  let indent : ℚ := margin + (obj.level : ℚ) * 12
  let b := checkBreak y
  let r := renderItems ex sz indent obj.content (b.2 - 14)
  (b.1 ++ [DrawOp.heading indent b.2
      (obj.hnum ++ " [" ++ pyFmtOpt obj.req_id ++ "] " ++ obj.heading)] ++ r.1,
    r.2 - 10)

/-- The object loop of generate_pdf over the traversal; objects models the
repository lookup self.objects[oid] (the source assumes every traversal
identifier is present, a missing key would abort the Python run). -/
def renderObjs (ex : String → Bool) (sz : String → ℚ × ℚ) (objects : String → RObj) :
    List String → ℚ → List DrawOp × ℚ
  | [], y => ([], y)
  | oid :: rest, y =>
    let o := renderObj ex sz (objects oid) y
    let r := renderObjs ex sz objects rest o.2
    (o.1 ++ r.1, r.2)

/-- Source method generate_pdf: the document title at the top margin, then
the traversal; the result is the ordered draw trace and the final cursor. -/
def generate_pdf (ex : String → Bool) (sz : String → ℚ × ℚ) (objects : String → RObj)
    (hierarchy : List String) : List DrawOp × ℚ :=
  let t := ([DrawOp.title margin (pageHeight - margin) "DOCUMENTO DE REQUISITOS"],
    pageHeight - margin - 20)
  let r := renderObjs ex sz objects hierarchy t.2
  (t.1 ++ r.1, r.2)

/-- Claim C8: an existing image is drawn uniformly scaled by the minimum of
available width over natural width and 200 over natural height, at the
scaled size, and the cursor advances by the scaled height plus 10. -/
theorem image_scaling (ex : String → Bool) (sz : String → ℚ × ℚ) (indent y : ℚ)
    (p : String) (iw ih : ℚ) (hex : ex p = true) (hsz : sz p = (iw, ih)) :
    renderItem ex sz indent y (ContentItem.image p)
      = ([DrawOp.image (indent + 10)
            (y - ih * min ((pageWidth - indent - 20) / iw) (200 / ih))
            (iw * min ((pageWidth - indent - 20) / iw) (200 / ih))
            (ih * min ((pageWidth - indent - 20) / iw) (200 / ih)) p],
          y - (ih * min ((pageWidth - indent - 20) / iw) (200 / ih) + 10)) := by
  simp [renderItem, hex, hsz]

/-- Claim C8 witness: natural size (400, 100), available width 300 and
maximum height 200 scale by three quarters to drawn size (300, 75). -/
theorem image_scaling_witness :
    renderItem (fun _ => true) (fun _ => ((400 : ℚ), (100 : ℚ))) (pageWidth - 320) 500
        (ContentItem.image "i")
      = ([DrawOp.image (pageWidth - 320 + 10) 425 300 75 "i"], 415) := by
  rw [image_scaling (fun _ => true) (fun _ => ((400 : ℚ), (100 : ℚ))) (pageWidth - 320) 500
    "i" 400 100 rfl rfl]
  have h300 : pageWidth - (pageWidth - 320) - 20 = (300 : ℚ) := by ring
  rw [h300]
  have hmin : min ((300 : ℚ) / 400) (200 / 100) = 3 / 4 := by
    rw [min_def]
    norm_num
  rw [hmin]
  norm_num

/-- Claim C9: a content item whose image path does not exist draws nothing
and leaves the cursor unchanged, and the remaining items of the sequence
render exactly as if the missing item were not there. -/
theorem missing_image_skip (ex : String → Bool) (sz : String → ℚ × ℚ) (indent y : ℚ)
    (p : String) (rest : List ContentItem) (hex : ex p = false) :
    renderItem ex sz indent y (ContentItem.image p) = ([], y) ∧
      (rest ≠ [] →
        renderItems ex sz indent (ContentItem.image p :: rest) y
          = renderItems ex sz indent rest y) := by
  have hitem : ∀ z : ℚ, renderItem ex sz indent z (ContentItem.image p) = ([], z) := by
    intro z
    simp [renderItem, hex]
  refine ⟨hitem y, ?_⟩
  intro hrest
  match rest with
  | r :: rs =>
    have htop : ¬ (pageHeight - margin < margin + 80) := by
      norm_num [pageHeight, margin, mm]
    by_cases hy : y < margin + 80
    · simp only [renderItems, checkBreak, if_pos hy, hitem]
      rw [if_neg htop]
      simp
    · simp only [renderItems, checkBreak, if_neg hy, hitem]
      simp

/-- Claim C9 witness. -/
theorem missing_image_skip_witness :
    renderItem (fun _ => false) (fun _ => ((1 : ℚ), 1)) margin 500 (ContentItem.image "m")
        = ([], 500) ∧
      renderItems (fun _ => false) (fun _ => ((1 : ℚ), 1)) margin
          (ContentItem.image "m" :: [ContentItem.ole "o"]) 500
        = renderItems (fun _ => false) (fun _ => ((1 : ℚ), 1)) margin [ContentItem.ole "o"] 500 :=
  ⟨(missing_image_skip (fun _ => false) (fun _ => ((1 : ℚ), 1)) margin 500 "m"
      [ContentItem.ole "o"] rfl).1,
    (missing_image_skip (fun _ => false) (fun _ => ((1 : ℚ), 1)) margin 500 "m"
      [ContentItem.ole "o"] rfl).2 (by simp)⟩

/-- The guarded-position property of one draw action: headings, labels and
links sit at or above the near-bottom value, an image call keeps its cursor
(its y plus its height) there, and the wrapped line of index i sits at or
above the near-bottom value minus the 12 points of each preceding line of
its own item. -/
def opOk : DrawOp → Prop
  | DrawOp.title _ y _ => threshold ≤ y
  | DrawOp.heading _ y _ => threshold ≤ y
  | DrawOp.textLine i _ y _ => threshold - 12 * (i : ℚ) ≤ y
  | DrawOp.image _ y _ h _ => threshold ≤ y + h
  | DrawOp.oleLabel _ y _ => threshold ≤ y
  | DrawOp.oleLink _ _ y1 _ _ => threshold - 2 ≤ y1
  | DrawOp.pageBreak => True

theorem top_ge_threshold : threshold ≤ pageHeight - margin := by
  norm_num [threshold, margin, pageHeight, mm]

theorem checkBreak_ge (y : ℚ) : threshold ≤ (checkBreak y).2 := by
  rw [checkBreak]
  split
  · exact top_ge_threshold
  · next hy =>
    rw [threshold]
    exact le_of_not_lt hy

theorem checkBreak_ops (y : ℚ) : ∀ op ∈ (checkBreak y).1, opOk op := by
  rw [checkBreak]
  split
  · intro op hop
    have : op = DrawOp.pageBreak := by simpa using hop
    rw [this]
    exact trivial
  · intro op hop
    simp at hop

theorem drawLines_ok (indent : ℚ) :
    ∀ (lines : List String) (i : Nat) (y : ℚ), threshold - 12 * (i : ℚ) ≤ y →
      ∀ op ∈ (drawLines indent i y lines).1, opOk op := by
  intro lines
  induction lines with
  | nil =>
    intro i y _ op hop
    simp [drawLines] at hop
  | cons line rest ih =>
    intro i y hy op hop
    simp only [drawLines] at hop
    rcases List.mem_cons.1 hop with rfl | hop
    · exact hy
    · apply ih (i + 1) (y - 12) ?_ op hop
      push_cast
      linarith

theorem renderItem_ok (ex : String → Bool) (sz : String → ℚ × ℚ) (indent y : ℚ)
    (it : ContentItem) (hy : threshold ≤ y) :
    ∀ op ∈ (renderItem ex sz indent y it).1, opOk op := by
  cases it with
  | text v =>
    intro op hop
    simp only [renderItem] at hop
    apply drawLines_ok indent (wrap v 90) 0 y ?_ op hop
    push_cast
    linarith
  | image p =>
    intro op hop
    simp only [renderItem] at hop
    split at hop
    · have : op = DrawOp.image (indent + 10)
          (y - (sz p).2 * min ((pageWidth - indent - 20) / (sz p).1) (200 / (sz p).2))
          ((sz p).1 * min ((pageWidth - indent - 20) / (sz p).1) (200 / (sz p).2))
          ((sz p).2 * min ((pageWidth - indent - 20) / (sz p).1) (200 / (sz p).2)) p := by
        simpa using hop
      rw [this]
      show threshold ≤ y - (sz p).2 * min ((pageWidth - indent - 20) / (sz p).1) (200 / (sz p).2)
          + (sz p).2 * min ((pageWidth - indent - 20) / (sz p).1) (200 / (sz p).2)
      rw [sub_add_cancel]
      exact hy
    · simp at hop
  | ole p =>
    intro op hop
    simp only [renderItem] at hop
    rcases List.mem_cons.1 hop with rfl | hop
    · exact hy
    · have : op = DrawOp.oleLink (baseName p) (indent + 10) (y - 2) (indent + 260) (y + 10) := by
        simpa using hop
      rw [this]
      show threshold - 2 ≤ y - 2
      linarith

theorem renderItems_ok (ex : String → Bool) (sz : String → ℚ × ℚ) (indent : ℚ) :
    ∀ (items : List ContentItem) (y : ℚ),
      ∀ op ∈ (renderItems ex sz indent items y).1, opOk op := by
  intro items
  induction items with
  | nil =>
    intro y op hop
    simp [renderItems] at hop
  | cons it rest ih =>
    intro y op hop
    simp only [renderItems] at hop
    rcases List.mem_append.1 hop with hop | hop
    · rcases List.mem_append.1 hop with hop | hop
      · exact checkBreak_ops y op hop
      · exact renderItem_ok ex sz indent (checkBreak y).2 it (checkBreak_ge y) op hop
    · exact ih _ op hop

theorem renderObj_ok (ex : String → Bool) (sz : String → ℚ × ℚ) (obj : RObj) (y : ℚ) :
    ∀ op ∈ (renderObj ex sz obj y).1, opOk op := by
  intro op hop
  simp only [renderObj] at hop
  rcases List.mem_append.1 hop with hop | hop
  · rcases List.mem_append.1 hop with hop | hop
    · exact checkBreak_ops y op hop
    · have : op = DrawOp.heading (margin + (obj.level : ℚ) * 12) (checkBreak y).2
          (obj.hnum ++ " [" ++ pyFmtOpt obj.req_id ++ "] " ++ obj.heading) := by
        simpa using hop
      rw [this]
      exact checkBreak_ge y
  · exact renderItems_ok ex sz _ obj.content _ op hop

theorem renderObjs_ok (ex : String → Bool) (sz : String → ℚ × ℚ) (objects : String → RObj) :
    ∀ (hierarchy : List String) (y : ℚ),
      ∀ op ∈ (renderObjs ex sz objects hierarchy y).1, opOk op := by
  intro hierarchy
  induction hierarchy with
  | nil =>
    intro y op hop
    simp [renderObjs] at hop
  | cons oid rest ih =>
    intro y op hop
    simp only [renderObjs] at hop
    rcases List.mem_append.1 hop with hop | hop
    · exact renderObj_ok ex sz (objects oid) y op hop
    · exact ih _ op hop

/-- Claim C1 (amended): the page-break check runs before every heading and
before every content item, never between the wrapped lines of one text
item. Hence in every trace of generate_pdf the title, every heading, every
embedded-object label, every image (measured at its cursor) sits at or
above margin + 80, every link rectangle at or above margin + 78, and the
wrapped line of index i of a text item only at or above
margin + 80 - 12 i: lines after the first of one item may fall below the
bottom margin, as the counterexample shows. -/
theorem layout_guard_positions (ex : String → Bool) (sz : String → ℚ × ℚ)
    (objects : String → RObj) (hierarchy : List String) (op : DrawOp)
    (hop : op ∈ (generate_pdf ex sz objects hierarchy).1) : opOk op := by
  simp only [generate_pdf] at hop
  rcases List.mem_cons.1 hop with rfl | hop
  · exact top_ge_threshold
  · exact renderObjs_ok ex sz objects hierarchy _ op hop

/-- Claim C1 amended witness. -/
theorem layout_guard_positions_witness :
    opOk (DrawOp.title margin (pageHeight - margin) "DOCUMENTO DE REQUISITOS") :=
  layout_guard_positions (fun _ => false) (fun _ => (1, 1)) (fun _ => ⟨none, "", [], 0, ""⟩)
    [] _ (by simp [generate_pdf, renderObjs])

/-- A draw action emitted with its cursor strictly below the bottom margin. -/
def opBelowBottom : DrawOp → Prop
  | DrawOp.title _ y _ => y < margin
  | DrawOp.heading _ y _ => y < margin
  | DrawOp.textLine _ _ y _ => y < margin
  | DrawOp.image _ y _ h _ => y + h < margin
  | DrawOp.oleLabel _ y _ => y < margin
  | DrawOp.oleLink _ _ y1 _ _ => y1 + 2 < margin
  | DrawOp.pageBreak => False

/-- A word of forty-five characters: two of them never share a wrapped line
of width 90, so each occupies one line. -/
def wordFortyFive : String := ⟨List.replicate 45 'a'⟩

/-- Nine such words: a text item that wraps to nine lines. -/
def longText : String := String.intercalate " " (List.replicate 9 wordFortyFive)

/-- Content that lowers the cursor to just above the near-bottom value with
43 embedded-object rows, then draws a nine-line text item across the
bottom margin. -/
def cexContent : List ContentItem :=
  List.replicate 43 (ContentItem.ole "b/f") ++ [ContentItem.text longText]

/-- The requirement object of the page-overflow counterexample. -/
def cexObj : RObj := ⟨some "R", "H", cexContent, 0, "1"⟩

theorem renderItems_append (ex : String → Bool) (sz : String → ℚ × ℚ) (indent : ℚ) :
    ∀ (a b : List ContentItem) (y : ℚ),
      renderItems ex sz indent (a ++ b) y
        = ((renderItems ex sz indent a y).1
            ++ (renderItems ex sz indent b (renderItems ex sz indent a y).2).1,
          (renderItems ex sz indent b (renderItems ex sz indent a y).2).2) := by
  intro a
  induction a with
  | nil =>
    intro b y
    simp [renderItems]
  | cons it rest ih =>
    intro b y
    rw [List.cons_append]
    simp only [renderItems]
    rw [ih]
    simp

/-- An embedded-object row starting at or above the near-bottom value plus
its own consumption triggers no page break; a run of n of them lowers the
cursor by exactly 14 n. -/
theorem renderItems_ole_final (ex : String → Bool) (sz : String → ℚ × ℚ) (indent : ℚ)
    (p : String) : ∀ (n : Nat) (y : ℚ), threshold ≤ y - 14 * n →
      (renderItems ex sz indent (List.replicate n (ContentItem.ole p)) y).2 = y - 14 * n := by
  intro n
  induction n with
  | zero =>
    intro y _
    simp [renderItems]
  | succ k ih =>
    intro y hy
    rw [List.replicate_succ]
    simp only [renderItems]
    have hyge : ¬ (y < margin + 80) := by
      rw [threshold] at hy
      push_cast at hy
      have hk : (0 : ℚ) ≤ (k : ℚ) := by positivity
      intro hlt
      nlinarith
    have hcb : checkBreak y = ([], y) := by
      rw [checkBreak, if_neg hyge]
    rw [hcb]
    simp only [renderItem]
    rw [ih (y - 14) (by push_cast at hy ⊢; linarith)]
    push_cast
    ring

/-- Inside one text item, a wrapped line whose position falls below the
bottom margin is drawn there: no check interrupts the line loop. -/
theorem drawLines_below (indent : ℚ) :
    ∀ (lines : List String) (i : Nat) (y : ℚ) (j : Nat), j < lines.length →
      y - 12 * (j : ℚ) < margin →
      ∃ op ∈ (drawLines indent i y lines).1, opBelowBottom op := by
  intro lines
  induction lines with
  | nil =>
    intro i y j hj
    simp at hj
  | cons line rest ih =>
    intro i y j hj hbelow
    cases j with
    | zero =>
      refine ⟨DrawOp.textLine i (indent + 10) y line, by simp [drawLines], ?_⟩
      show y < margin
      push_cast at hbelow
      linarith
    | succ k =>
      obtain ⟨op, hmem, hbel⟩ := ih (i + 1) (y - 12) k (by simpa using hj)
        (by push_cast at hbelow ⊢; linarith)
      refine ⟨op, ?_, hbel⟩
      simp only [drawLines]
      exact List.mem_cons_of_mem _ hmem

theorem cex_items_below (ex : String → Bool) (sz : String → ℚ × ℚ) (indent : ℚ) :
    ∃ op ∈ (renderItems ex sz indent cexContent (pageHeight - margin - 20 - 14)).1,
      opBelowBottom op := by
  have hwrap : wrap longText 90 = List.replicate 9 wordFortyFive := by decide
  rw [show cexContent
      = List.replicate 43 (ContentItem.ole "b/f") ++ [ContentItem.text longText] from rfl]
  rw [renderItems_append]
  have hfin : (renderItems ex sz indent (List.replicate 43 (ContentItem.ole "b/f"))
      (pageHeight - margin - 20 - 14)).2
        = pageHeight - margin - 20 - 14 - 14 * ((43 : Nat) : ℚ) :=
    renderItems_ole_final ex sz indent "b/f" 43 _
      (by push_cast; norm_num [threshold, margin, pageHeight, mm])
  rw [hfin]
  obtain ⟨op, hmem, hbel⟩ :
      ∃ op ∈ (renderItems ex sz indent [ContentItem.text longText]
        (pageHeight - margin - 20 - 14 - 14 * ((43 : Nat) : ℚ))).1, opBelowBottom op := by
    have hcb : checkBreak (pageHeight - margin - 20 - 14 - 14 * ((43 : Nat) : ℚ))
        = ([], pageHeight - margin - 20 - 14 - 14 * ((43 : Nat) : ℚ)) := by
      rw [checkBreak, if_neg]
      push_cast
      norm_num [margin, pageHeight, mm]
    simp only [renderItems, renderItem, hcb]
    rw [hwrap]
    obtain ⟨op, hmem, hbel⟩ := drawLines_below indent (List.replicate 9 wordFortyFive) 0
      (pageHeight - margin - 20 - 14 - 14 * ((43 : Nat) : ℚ)) 8
      (by simp) (by push_cast; norm_num [margin, pageHeight, mm])
    exact ⟨op, by simpa using hmem, hbel⟩
  exact ⟨op, List.mem_append_right _ hmem, hbel⟩

/-- Claim C1 counterexample: a concrete run of generate_pdf emits a wrapped
text line strictly below the bottom margin, because no page break separates
the lines of a single text item. -/
theorem layout_below_margin_cex :
    ∃ op ∈ (generate_pdf (fun _ => false) (fun _ => ((1 : ℚ), 1)) (fun _ => cexObj) ["x"]).1,
      opBelowBottom op := by
  obtain ⟨op, hmem, hbel⟩ := cex_items_below (fun _ => false) (fun _ => ((1 : ℚ), 1))
    (margin + ((cexObj.level : ℚ)) * 12)
  refine ⟨op, ?_, hbel⟩
  simp only [generate_pdf, renderObjs, renderObj]
  have hb0 : checkBreak (pageHeight - margin - 20) = ([], pageHeight - margin - 20) := by
    rw [checkBreak, if_neg]
    norm_num [margin, pageHeight, mm]
  rw [hb0]
  have hmem2 : op ∈ (renderItems (fun _ => false) (fun _ => ((1 : ℚ), 1))
      (margin + ((cexObj.level : ℚ)) * 12) cexObj.content (pageHeight - margin - 20 - 14)).1 :=
    hmem
  simp only [List.nil_append, List.append_nil, List.mem_cons, List.mem_append]
  tauto
